import Mathlib

/-!
Verification of the streaming-dataset mechanisms described by the repository's
specification: the Buffered Shuffle-Stream (`IterableDataset.shuffle`), the
Round-Robin Interleaver (`interleave_datasets`), the `take`/`skip` split
helpers, and the GLUE MRPC metric computation (`metric.compute`).

The repository consists of notebooks that call these mechanisms from external
libraries; the algorithms themselves are not implemented in the repository, so
each mechanism is modelled here from the specification's contract, and the
spec's testable properties are proved against the models.
-/

namespace NLPJourney

/-! ### Definitions: Buffered Shuffle-Stream -/

/-- Errors raised at construction time. -/
inductive StreamError : Type where
  | InvalidArgument : StreamError
deriving DecidableEq

/-- Modelled from the spec: the seeded pseudo-random number generator behind
both mechanisms ("seeded, reproducible"); the spec fixes no particular
generator, only that the draw at step `g` is a deterministic function of the
seed, so a linear congruential step on the seed and the step counter is used. -/
def lcg (seed g : Nat) : Nat :=
  (1664525 * (seed + g) + 1013904223) % 4294967296

/-- Modelled from the spec: the emission loop of the Buffered Shuffle-Stream
(the body of `IterableDataset.shuffle`, which is library code not present in
this repository). Each pull selects one index pseudo-randomly from the current
buffer contents, yields that record, and replaces its slot with the next source
record; once the source is exhausted the emptied slot is removed instead of
refilled, and the stream ends when the buffer is empty. `pick g` is the raw
random draw at step `g`, reduced modulo the current buffer length to obtain
the index. -/
def shuffleLoop {α : Type} (pick : Nat → Nat) : Nat → List α → List α → List α
  | _, [], _ => []
  | g, b :: bs, [] =>
      (b :: bs).getD (pick g % (b :: bs).length) b ::
        shuffleLoop pick (g + 1) ((b :: bs).eraseIdx (pick g % (b :: bs).length)) []
  | g, b :: bs, y :: rest =>
      (b :: bs).getD (pick g % (b :: bs).length) b ::
        shuffleLoop pick (g + 1) ((b :: bs).set (pick g % (b :: bs).length) y) rest
termination_by g buf src => buf.length + src.length
decreasing_by
  · have hi : pick g % (b :: bs).length < (b :: bs).length :=
      Nat.mod_lt _ (by simp)
    have h2 := List.length_eraseIdx_of_lt hi
    omega
  · simp [List.length_set]

/-- Modelled from the spec: the Buffered Shuffle-Stream's iteration protocol —
on first pull the buffer is filled by drawing up to `bufferSize` records from
the source (fewer if the source is shorter), and the emission loop then runs on
the buffer and the remaining source. -/
def shuffleStream {α : Type} (pick : Nat → Nat) (bufferSize : Nat)
    (src : List α) : List α :=
  shuffleLoop pick 0 (src.take bufferSize) (src.drop bufferSize)

/-- Modelled from the spec: `IterableDataset.shuffle(buffer_size, seed)` — the
full record sequence emitted by the Buffered Shuffle-Stream for a given seed. -/
def shuffle {α : Type} (seed bufferSize : Nat) (src : List α) : List α :=
  shuffleStream (lcg seed) bufferSize src

/-- Modelled from the spec: Construct(source, buffer_size, seed) of the
Buffered Shuffle-Stream; fails with `InvalidArgument` if `buffer_size <= 0`. -/
def mkShuffle {α : Type} (seed : Nat) (bufferSize : Int) (src : List α) :
    Except StreamError (List α) :=
  if bufferSize ≤ 0 then Except.error StreamError.InvalidArgument
  else Except.ok (shuffle seed bufferSize.toNat src)

/-- Modelled from the spec: the sequence of buffer lengths observed at each
pull of the Buffered Shuffle-Stream's emission loop, recorded just before the
pull's record is yielded; it mirrors `shuffleLoop` step for step. -/
def shuffleBufLens {α : Type} (pick : Nat → Nat) : Nat → List α → List α → List Nat
  | _, [], _ => []
  | g, b :: bs, [] =>
      (b :: bs).length ::
        shuffleBufLens pick (g + 1) ((b :: bs).eraseIdx (pick g % (b :: bs).length)) []
  | g, b :: bs, y :: rest =>
      (b :: bs).length ::
        shuffleBufLens pick (g + 1) ((b :: bs).set (pick g % (b :: bs).length) y) rest
termination_by g buf src => buf.length + src.length
decreasing_by
  · have hi : pick g % (b :: bs).length < (b :: bs).length :=
      Nat.mod_lt _ (by simp)
    have h2 := List.length_eraseIdx_of_lt hi
    omega
  · simp [List.length_set]

/-- Modelled from the spec: the buffer lengths observed over a full run of
`IterableDataset.shuffle(buffer_size, seed)`, starting from the initial fill. -/
def shuffleBufTrace {α : Type} (seed bufferSize : Nat) (src : List α) : List Nat :=
  shuffleBufLens (lcg seed) 0 (src.take bufferSize) (src.drop bufferSize)

/-! ### Definitions: Round-Robin Interleaver -/

/-- Modelled from the spec: a pseudo-random rational in `[0, 1)` derived from
the seed and the step counter, used for the weighted draw. -/
def unitRat (seed g : Nat) : ℚ :=
  (lcg seed g : ℚ) / 4294967296

/-- Modelled from the spec: the index selected by a weighted draw — the first
source whose cumulative weight interval contains the drawn point `r`. -/
def cumIndex : List ℚ → ℚ → Nat
  | [], _ => 0
  | w :: ws, r => if r < w then 0 else cumIndex ws (r - w) + 1

/-- Modelled from the spec: the seeded weighted random choice among sources —
a point is drawn uniformly in `[0, total weight)` and mapped to the source
whose cumulative interval contains it. -/
def weightedChoose (ws : List ℚ) (seed g : Nat) : Nat :=
  cumIndex ws (unitRat seed g * ws.sum)

/-- Modelled from the spec: the emission loop of the Round-Robin Interleaver
under exhaustion Policy A ("stop at first exhaustion"), which is library code
not present in this repository. Each pull performs one random choice among the
sources, yields the next record of the chosen source (tagged with the source
index so provenance can be stated), and advances only that source's cursor;
the combined sequence ends as soon as any one source is exhausted. -/
def interleaveLoop {α : Type} (choose : Nat → Nat) (g : Nat)
    (srcs : List (List α)) : List (Nat × α) :=
  if srcs.any List.isEmpty then []
  else
    match h : srcs.getD (choose g % srcs.length) [] with
    | [] => []
    | x :: rest =>
      (choose g % srcs.length, x) ::
        interleaveLoop choose (g + 1) (srcs.set (choose g % srcs.length) rest)
termination_by (srcs.map List.length).sum
decreasing_by
  have key : ∀ (L : List (List α)) (J : Nat) (X : α) (R : List α),
      L.getD J [] = X :: R →
      ((L.set J R).map List.length).sum < (L.map List.length).sum := by
    intro L
    induction L with
    | nil => intro J X R hJ; simp at hJ
    | cons s ss ih =>
      intro J X R hJ
      cases J with
      | zero =>
        simp only [List.getD_cons_zero] at hJ
        subst hJ
        simp only [List.set_cons_zero, List.map_cons, List.sum_cons, List.length_cons]
        omega
      | succ m =>
        simp only [List.getD_cons_succ] at hJ
        simp only [List.set_cons_succ, List.map_cons, List.sum_cons]
        exact Nat.add_lt_add_left (ih m X R hJ) s.length
  exact key srcs _ x rest h

/-- Modelled from the spec: `interleave_datasets(sources, probabilities, seed)`
— Construct validates that the weight and source lists have equal length and
that not all weights are zero, failing with `InvalidArgument` otherwise, and
then the Policy-A weighted emission loop runs from the initial cursors. -/
def interleave_datasets {α : Type} (seed : Nat) (srcs : List (List α))
    (ws : List ℚ) : Except StreamError (List (Nat × α)) :=
  if srcs.length ≠ ws.length ∨ ∀ w ∈ ws, w = 0 then
    Except.error StreamError.InvalidArgument
  else
    Except.ok (interleaveLoop (weightedChoose ws seed) 0 srcs)

/-- The projection of an interleaved output onto the records that originated
from source `i`. -/
def proj {α : Type} (out : List (Nat × α)) (i : Nat) : List α :=
  (out.filter (fun p => p.1 == i)).map Prod.snd

/-! ### Definitions: take/skip splits -/

/-- Modelled from the spec: `IterableDataset.take(n)` — library code not
present in this repository; the notebook uses it to build a validation split
and describes it as selecting the first `n` records of the stream. -/
def dsTake {α : Type} (n : Nat) (s : List α) : List α :=
  s.take n

/-- Modelled from the spec: `IterableDataset.skip(n)` — library code not
present in this repository; the notebook uses it to build a training split and
describes it as skipping the first `n` records and yielding the rest. -/
def dsSkip {α : Type} (n : Nat) (s : List α) : List α :=
  s.drop n

/-! ### Definitions: metric computation -/

/-- Modelled from the spec: the running (correct, total) counts accumulated by
walking a prediction list and a reference list position by position, as the
accuracy metric of `metric.compute` does; library code not present in this
repository. -/
def accStats : List Nat → List Nat → Nat × Nat
  | p :: ps, r :: rs =>
      let s := accStats ps rs
      (s.1 + (if p = r then 1 else 0), s.2 + 1)
  | _, _ => (0, 0)

/-- The number of positions at which prediction and reference agree. -/
def matchCount (preds refs : List Nat) : Nat :=
  ((preds.zip refs).filter (fun q => q.1 == q.2)).length

/-- Modelled from the spec: the `accuracy` entry returned by `metric.compute`
— the fraction of positions at which the prediction equals the reference. -/
def accuracy (preds refs : List Nat) : ℚ :=
  ((accStats preds refs).1 : ℚ) / ((accStats preds refs).2 : ℚ)

/-- True positives of the positive class: prediction 1, reference 1. -/
def tpCount (preds refs : List Nat) : Nat :=
  ((preds.zip refs).filter (fun q => q.1 == 1 && q.2 == 1)).length

/-- False positives of the positive class: prediction 1, reference 0. -/
def fpCount (preds refs : List Nat) : Nat :=
  ((preds.zip refs).filter (fun q => q.1 == 1 && q.2 == 0)).length

/-- False negatives of the positive class: prediction 0, reference 1. -/
def fnCount (preds refs : List Nat) : Nat :=
  ((preds.zip refs).filter (fun q => q.1 == 0 && q.2 == 1)).length

/-- Modelled from the spec: the `f1` entry returned by `metric.compute` —
`2*TP / (2*TP + FP + FN)` for the positive class. -/
def f1 (preds refs : List Nat) : ℚ :=
  (2 * tpCount preds refs : ℚ) /
    ((2 * tpCount preds refs + fpCount preds refs + fnCount preds refs : Nat) : ℚ)

/-- Modelled from the spec: `metric.compute(predictions, references)` for the
GLUE MRPC metric — returns the accuracy and f1 entries of the result. -/
def metricCompute (preds refs : List Nat) : ℚ × ℚ :=
  (accuracy preds refs, f1 preds refs)

/-! ### List helper lemmas -/

theorem getD_of_length_le {α : Type} (l : List α) (i : Nat) (d : α)
    (h : l.length ≤ i) : l.getD i d = d := by
  induction l generalizing i with
  | nil => rfl
  | cons a t ih =>
    cases i with
    | zero => simp at h
    | succ j =>
      simp only [List.length_cons, Nat.succ_le_succ_iff] at h
      simpa using ih j h

theorem getD_set_self {α : Type} (l : List α) (i : Nat) (y d : α)
    (h : i < l.length) : (l.set i y).getD i d = y := by
  induction l generalizing i with
  | nil => simp at h
  | cons a t ih =>
    cases i with
    | zero => rfl
    | succ j =>
      simp only [List.length_cons, Nat.succ_lt_succ_iff] at h
      simpa using ih j h

theorem getD_set_ne {α : Type} (l : List α) (i j : Nat) (y d : α)
    (h : i ≠ j) : (l.set j y).getD i d = l.getD i d := by
  induction l generalizing i j with
  | nil => rfl
  | cons a t ih =>
    cases j with
    | zero =>
      cases i with
      | zero => exact absurd rfl h
      | succ k => rfl
    | succ m =>
      cases i with
      | zero => rfl
      | succ k =>
        simpa using ih k m (fun he => h (by rw [he]))

theorem getD_mem {α : Type} (l : List α) (i : Nat) (d : α)
    (h : i < l.length) : l.getD i d ∈ l := by
  induction l generalizing i with
  | nil => simp at h
  | cons a t ih =>
    cases i with
    | zero => simp
    | succ j =>
      simp only [List.length_cons, Nat.succ_lt_succ_iff] at h
      exact List.mem_cons_of_mem a (ih j h)

theorem getD_cons_eraseIdx_perm {α : Type} (l : List α) (i : Nat) (d : α)
    (h : i < l.length) : List.Perm (l.getD i d :: l.eraseIdx i) l := by
  induction l generalizing i with
  | nil => simp at h
  | cons a t ih =>
    cases i with
    | zero => simp [List.eraseIdx]
    | succ j =>
      simp only [List.length_cons, Nat.succ_lt_succ_iff] at h
      show List.Perm (t.getD j d :: a :: t.eraseIdx j) (a :: t)
      exact List.Perm.trans
        (List.Perm.swap a (t.getD j d) (t.eraseIdx j))
        (List.Perm.cons a (ih j h))

theorem getD_cons_set_perm {α : Type} (l : List α) (i : Nat) (y d : α)
    (h : i < l.length) : List.Perm (l.getD i d :: l.set i y) (y :: l) := by
  induction l generalizing i with
  | nil => simp at h
  | cons a t ih =>
    cases i with
    | zero => simpa using List.Perm.swap y a t
    | succ j =>
      simp only [List.length_cons, Nat.succ_lt_succ_iff] at h
      show List.Perm (t.getD j d :: a :: t.set j y) (y :: a :: t)
      exact List.Perm.trans
        (List.Perm.swap a (t.getD j d) (t.set j y))
        (List.Perm.trans (List.Perm.cons a (ih j h)) (List.Perm.swap y a t))

/-! ### Shuffle-Stream lemmas -/

theorem shuffleLoop_perm {α : Type} (pick : Nat → Nat) :
    ∀ (g : Nat) (buf src : List α), (buf = [] → src = []) →
      List.Perm (shuffleLoop pick g buf src) (buf ++ src) := by
  intro g buf src
  induction g, buf, src using shuffleLoop.induct pick with
  | case1 g src =>
    intro hne
    simp [hne rfl, shuffleLoop]
  | case2 g b bs ih =>
    intro _
    rw [shuffleLoop]
    have hi : pick g % (b :: bs).length < (b :: bs).length :=
      Nat.mod_lt _ (by simp)
    have h1 := ih (fun _ => rfl)
    simp only [List.append_nil] at h1 ⊢
    exact List.Perm.trans
      (List.Perm.cons _ h1)
      (getD_cons_eraseIdx_perm (b :: bs) _ b hi)
  | case3 g b bs y rest ih =>
    intro _
    rw [shuffleLoop]
    have hi : pick g % (b :: bs).length < (b :: bs).length :=
      Nat.mod_lt _ (by simp)
    have hset : (b :: bs).set (pick g % (b :: bs).length) y ≠ [] := by
      intro h
      have := congrArg List.length h
      simp [List.length_set] at this
    have h1 := ih (fun h => absurd h hset)
    refine List.Perm.trans (List.Perm.cons _ h1) ?_
    show List.Perm ((b :: bs).getD (pick g % (b :: bs).length) b ::
      ((b :: bs).set (pick g % (b :: bs).length) y ++ rest))
      ((b :: bs) ++ y :: rest)
    exact List.Perm.trans
      (List.Perm.append_right rest (getD_cons_set_perm (b :: bs) _ y b hi))
      List.perm_middle.symm

theorem shuffleStream_perm {α : Type} (pick : Nat → Nat) (bufferSize : Nat)
    (src : List α) (hbs : 0 < bufferSize) :
    List.Perm (shuffleStream pick bufferSize src) src := by
  unfold shuffleStream
  have hcond : src.take bufferSize = [] → src.drop bufferSize = [] := by
    intro h
    cases src with
    | nil => simp
    | cons a t =>
      cases bufferSize with
      | zero => exact absurd hbs (by simp)
      | succ m => simp [List.take] at h
  have := shuffleLoop_perm pick 0 (src.take bufferSize) (src.drop bufferSize) hcond
  simpa [List.take_append_drop] using this

theorem shuffleLoop_singleton {α : Type} (pick : Nat → Nat) :
    ∀ (g : Nat) (x : α) (src : List α),
      shuffleLoop pick g [x] src = x :: src := by
  intro g x src
  induction src generalizing g x with
  | nil =>
    rw [shuffleLoop]
    simp only [List.length_cons, List.length_nil, Nat.mod_one,
      List.getD_cons_zero, List.eraseIdx_cons_zero]
    simp [shuffleLoop, Nat.mod_one]
  | cons y rest ih =>
    rw [shuffleLoop]
    simp [Nat.mod_one, ih]

theorem shuffleBufLens_le {α : Type} (pick : Nat → Nat) :
    ∀ (g : Nat) (buf src : List α) (n : Nat),
      n ∈ shuffleBufLens pick g buf src → n ≤ buf.length := by
  intro g buf src
  induction g, buf, src using shuffleBufLens.induct pick with
  | case1 g src =>
    intro n hn
    rw [shuffleBufLens] at hn
    simp at hn
  | case2 g b bs ih =>
    intro n hn
    rw [shuffleBufLens] at hn
    have hi : pick g % (b :: bs).length < (b :: bs).length :=
      Nat.mod_lt _ (by simp)
    rcases List.mem_cons.mp hn with h | h
    · exact Nat.le_of_eq h
    · have := ih n h
      have h2 := List.length_eraseIdx_of_lt hi
      omega
  | case3 g b bs y rest ih =>
    intro n hn
    rw [shuffleBufLens] at hn
    rcases List.mem_cons.mp hn with h | h
    · exact Nat.le_of_eq h
    · have := ih n h
      simpa [List.length_set] using this

/-! ### Interleaver lemmas -/

theorem proj_cons_self {α : Type} (i : Nat) (x : α) (out : List (Nat × α)) :
    proj ((i, x) :: out) i = x :: proj out i := by
  simp [proj]

theorem proj_cons_ne {α : Type} (i j : Nat) (x : α) (out : List (Nat × α))
    (h : j ≠ i) : proj ((j, x) :: out) i = proj out i := by
  simp [proj, h]

theorem interleaveLoop_stop {α : Type} (choose : Nat → Nat) (g : Nat)
    (srcs : List (List α)) (h : ∃ s ∈ srcs, s = []) :
    interleaveLoop choose g srcs = [] := by
  rw [interleaveLoop]
  have : srcs.any List.isEmpty = true := by
    rcases h with ⟨s, hs, he⟩
    exact List.any_eq_true.mpr ⟨s, hs, by simp [he]⟩
  simp [this]

theorem interleaveLoop_step {α : Type} (choose : Nat → Nat) (g : Nat)
    (srcs : List (List α)) (x : α) (rest : List α)
    (hg : srcs.any List.isEmpty = false)
    (hd : srcs.getD (choose g % srcs.length) [] = x :: rest) :
    interleaveLoop choose g srcs =
      (choose g % srcs.length, x) ::
        interleaveLoop choose (g + 1) (srcs.set (choose g % srcs.length) rest) := by
  rw [interleaveLoop]
  simp only [hg, Bool.false_eq_true, if_false]
  split
  · rename_i heq
    rw [hd] at heq
    cases heq
  · rename_i x' rest' heq
    rw [hd] at heq
    injection heq with h1 h2
    subst h1
    subst h2
    rfl

theorem interleaveLoop_proj_init {α : Type} (choose : Nat → Nat) :
    ∀ (g : Nat) (srcs : List (List α)) (i : Nat), i < srcs.length →
      ∃ t, proj (interleaveLoop choose g srcs) i ++ t = srcs.getD i [] := by
  intro g srcs
  induction g, srcs using interleaveLoop.induct choose with
  | case1 g srcs hany =>
    intro i hi
    rw [interleaveLoop]
    simp only [hany, if_true]
    exact ⟨srcs.getD i [], by simp [proj]⟩
  | case2 g srcs hany hmatch =>
    intro i hi
    rw [interleaveLoop]
    simp only [hany, if_false, Bool.false_eq_true]
    rw [hmatch]
    exact ⟨srcs.getD i [], by simp [proj]⟩
  | case3 g srcs hany x rest hmatch ih =>
    intro i hi
    rw [interleaveLoop]
    simp only [hany, if_false, Bool.false_eq_true]
    rw [hmatch]
    have hj : choose g % srcs.length < srcs.length := by
      have : srcs.getD (choose g % srcs.length) [] ≠ [] := by
        rw [hmatch]; simp
      by_contra hge
      exact this (getD_of_length_le _ _ _ (Nat.le_of_not_lt hge))
    by_cases hij : i = choose g % srcs.length
    · subst hij
      rcases ih (choose g % srcs.length)
        (by simpa [List.length_set] using hi) with ⟨t, ht⟩
      refine ⟨t, ?_⟩
      rw [proj_cons_self]
      rw [getD_set_self _ _ _ _ hj] at ht
      rw [hmatch]
      simp only [List.cons_append]
      rw [ht]
    · rcases ih i (by simpa [List.length_set] using hi) with ⟨t, ht⟩
      refine ⟨t, ?_⟩
      rw [proj_cons_ne _ _ _ _ (fun he => hij he.symm)]
      rw [getD_set_ne _ _ _ _ _ hij] at ht
      exact ht

theorem interleaveLoop_drained {α : Type} (choose : Nat → Nat) :
    ∀ (g : Nat) (srcs : List (List α)), srcs ≠ [] →
      ∃ i, i < srcs.length ∧
        proj (interleaveLoop choose g srcs) i = srcs.getD i [] := by
  intro g srcs
  induction g, srcs using interleaveLoop.induct choose with
  | case1 g srcs hany =>
    intro _
    rcases List.any_eq_true.mp hany with ⟨s, hs, he⟩
    rcases List.mem_iff_get.mp hs with ⟨⟨i, hi⟩, hg⟩
    refine ⟨i, hi, ?_⟩
    rw [interleaveLoop]
    simp only [hany, if_true]
    have hgd : srcs.getD i [] = s := by
      rw [List.getD_eq_getElem?_getD, List.getElem?_eq_getElem hi]
      simpa using hg.symm ▸ rfl
    rw [hgd]
    simp [proj, List.isEmpty_iff.mp he]
  | case2 g srcs hany hmatch =>
    intro hne
    have hlen : 0 < srcs.length := List.length_pos.mpr hne
    have hj : choose g % srcs.length < srcs.length := Nat.mod_lt _ hlen
    have hmem := getD_mem srcs (choose g % srcs.length) [] hj
    rw [hmatch] at hmem
    have : srcs.any List.isEmpty = true :=
      List.any_eq_true.mpr ⟨[], hmem, by simp⟩
    rw [this] at hany
    exact absurd hany (by simp)
  | case3 g srcs hany x rest hmatch ih =>
    intro hne
    have hlen : 0 < srcs.length := List.length_pos.mpr hne
    have hj : choose g % srcs.length < srcs.length := Nat.mod_lt _ hlen
    have hset_ne : srcs.set (choose g % srcs.length) rest ≠ [] := by
      intro h
      have h0 := congrArg List.length h
      rw [List.length_set] at h0
      simp only [List.length_nil] at h0
      omega
    rcases ih hset_ne with ⟨i, hi, hproj⟩
    rw [List.length_set] at hi
    refine ⟨i, hi, ?_⟩
    rw [interleaveLoop]
    simp only [hany, if_false, Bool.false_eq_true]
    rw [hmatch]
    by_cases hij : i = choose g % srcs.length
    · subst hij
      rw [proj_cons_self, hproj, getD_set_self _ _ _ _ hj, hmatch]
    · rw [proj_cons_ne _ _ _ _ (fun he => hij he.symm), hproj,
        getD_set_ne _ _ _ _ _ hij]

theorem interleaveLoop_instant_stop {α : Type} (choose : Nat → Nat) :
    ∀ (g : Nat) (srcs : List (List α)) (u v : List (Nat × α)),
      u ++ v = interleaveLoop choose g srcs → v ≠ [] →
      ∀ i, i < srcs.length → (proj u i).length < (srcs.getD i []).length := by
  intro g srcs
  induction g, srcs using interleaveLoop.induct choose with
  | case1 g srcs hany =>
    intro u v huv hv i hi
    rw [interleaveLoop] at huv
    simp only [hany, if_true] at huv
    exact absurd (List.append_eq_nil.mp huv).2 hv
  | case2 g srcs hany hmatch =>
    intro u v huv hv i hi
    rw [interleaveLoop] at huv
    simp only [hany, if_false, Bool.false_eq_true] at huv
    rw [hmatch] at huv
    exact absurd (List.append_eq_nil.mp huv).2 hv
  | case3 g srcs hany x rest hmatch ih =>
    intro u v huv hv i hi
    rw [interleaveLoop] at huv
    simp only [hany, if_false, Bool.false_eq_true] at huv
    rw [hmatch] at huv
    have hall : ∀ s ∈ srcs, s ≠ [] := by
      intro s hs hnil
      rw [List.any_eq_true] at hany
      exact absurd ⟨s, hs, by simp [hnil]⟩ hany
    have hj : choose g % srcs.length < srcs.length := by
      have hne : srcs.getD (choose g % srcs.length) [] ≠ [] := by
        rw [hmatch]; simp
      by_contra hge
      exact hne (getD_of_length_le _ _ _ (Nat.le_of_not_lt hge))
    cases u with
    | nil =>
      simp only [proj, List.filter_nil, List.map_nil, List.length_nil]
      exact List.length_pos.mpr (hall _ (getD_mem srcs i [] hi))
    | cons p u₂ =>
      rw [List.cons_append] at huv
      injection huv with hp hrec
      subst hp
      have hi₂ : i < (srcs.set (choose g % srcs.length) rest).length := by
        simpa [List.length_set] using hi
      have hstep := ih u₂ v hrec hv i hi₂
      by_cases hij : i = choose g % srcs.length
      · subst hij
        rw [getD_set_self _ _ _ _ hj] at hstep
        rw [proj_cons_self, hmatch]
        simp only [List.length_cons]
        exact Nat.succ_lt_succ hstep
      · rw [getD_set_ne _ _ _ _ _ hij] at hstep
        rw [proj_cons_ne _ _ _ _ (fun he => hij he.symm)]
        exact hstep

/-! ### Metric lemmas -/

theorem accStats_fst :
    ∀ preds refs : List Nat, (accStats preds refs).1 = matchCount preds refs := by
  intro preds
  induction preds with
  | nil => intro refs; cases refs <;> rfl
  | cons p ps ih =>
    intro refs
    cases refs with
    | nil => rfl
    | cons r rs =>
      simp only [accStats, matchCount, List.zip_cons_cons, List.filter_cons]
      by_cases h : p = r
      · simp [h, ih rs, matchCount, Nat.add_comm]
      · have hb : (p == r) = false := beq_eq_false_iff_ne.mpr h
        simp [h, hb, ih rs, matchCount]

theorem accStats_snd :
    ∀ preds refs : List Nat, preds.length = refs.length →
      (accStats preds refs).2 = refs.length := by
  intro preds
  induction preds with
  | nil =>
    intro refs h
    have : refs = [] := List.length_eq_zero.mp h.symm
    subst this
    rfl
  | cons p ps ih =>
    intro refs h
    cases refs with
    | nil => simp at h
    | cons r rs =>
      simp only [List.length_cons, Nat.succ.injEq] at h
      simp [accStats, ih rs h]

/-! ### Claim theorems -/

/-- C1: for every finite source sequence and every `buffer_size ≥ length
(source)`, the Buffered Shuffle-Stream emits exactly the same multiset of
records as the source — no record omitted, none duplicated. -/
theorem shuffle_emits_same_multiset (α : Type) (seed bufferSize : Nat)
    (src : List α) (h : src.length ≤ bufferSize) :
    (shuffle seed bufferSize src : Multiset α) = (src : Multiset α) := by
  rcases Nat.eq_zero_or_pos bufferSize with hb | hb
  · subst hb
    have h0 : src = [] := List.length_eq_zero.mp (Nat.le_zero.mp h)
    subst h0
    simp [shuffle, shuffleStream, shuffleLoop]
  · exact Multiset.coe_eq_coe.mpr (shuffleStream_perm (lcg seed) bufferSize src hb)

theorem shuffle_emits_same_multiset_witness :
    (shuffle 7 3 [1, 2, 3] : Multiset Nat) = ([1, 2, 3] : Multiset Nat) :=
  shuffle_emits_same_multiset Nat 7 3 [1, 2, 3] (by decide)

/-- C2: for every list of sources and every weight vector accepted at
construction, the Round-Robin Interleaver's output is a valid interleaving —
the projection of the output onto the records originating from source `i` is
an initial segment of source `i`, i.e. it reproduces source `i`'s original
order exactly. -/
theorem interleave_projection_preserves_order (α : Type) (seed : Nat)
    (srcs : List (List α)) (ws : List ℚ) (out : List (Nat × α))
    (hok : interleave_datasets seed srcs ws = Except.ok out) :
    ∀ i, i < srcs.length → ∃ t, proj out i ++ t = srcs.getD i [] := by
  unfold interleave_datasets at hok
  split at hok
  · exact absurd hok (by simp)
  · injection hok with h
    subst h
    exact fun i hi => interleaveLoop_proj_init (weightedChoose ws seed) 0 srcs i hi

theorem interleave_projection_preserves_order_witness :
    ∃ t, proj [(0, 1)] 0 ++ t = [[1]].getD 0 [] :=
  interleave_projection_preserves_order Nat 0 [[1]] [1] [(0, 1)]
    (by
      have h1 : interleaveLoop (weightedChoose [1] 0) 0 [[1]] = [(0, (1 : Nat))] := by
        rw [interleaveLoop_step (weightedChoose [1] 0) 0 [[1]] 1 []
          (by simp) (by simp [Nat.mod_one])]
        simp [Nat.mod_one]
        exact interleaveLoop_stop _ _ _ ⟨[], List.mem_cons_self _ _, rfl⟩
      simp [interleave_datasets, h1])
    0 (by decide)

/-- C3: for a fixed seed and fixed source contents and order, two independent
runs of the Buffered Shuffle-Stream produce identical output orderings — the
output order is a deterministic function of the seed and the source. -/
theorem shuffle_deterministic_for_fixed_seed (α : Type) (seed bufferSize : Nat)
    (src₁ src₂ : List α) (h : src₁ = src₂) :
    shuffle seed bufferSize src₁ = shuffle seed bufferSize src₂ := by
  rw [h]

theorem shuffle_deterministic_for_fixed_seed_witness :
    shuffle 7 3 [1, 2, 3] = shuffle 7 3 [1, 2, 3] :=
  shuffle_deterministic_for_fixed_seed Nat 7 3 [1, 2, 3] [1, 2, 3] rfl

/-- C4: under Policy A, the interleaved sequence terminates the instant the
first source is drained. First conjunct (temporal core): while even one more
record remains to be emitted — i.e. after any proper prefix of the output —
every source still holds unconsumed records, so no record is ever emitted at
or after the moment any source becomes exhausted. Moreover some source is
emitted in full (the one whose exhaustion ends the stream), and every source's
emitted records form an initial segment of that source, the remaining records
being left unconsumed. -/
theorem interleave_policyA_stops_at_first_exhaustion (α : Type) (seed : Nat)
    (srcs : List (List α)) (ws : List ℚ) (out : List (Nat × α))
    (hok : interleave_datasets seed srcs ws = Except.ok out)
    (hne : srcs ≠ []) :
    (∀ u v, u ++ v = out → v ≠ [] →
      ∀ i, i < srcs.length → (proj u i).length < (srcs.getD i []).length) ∧
    (∃ i, i < srcs.length ∧ proj out i = srcs.getD i []) ∧
    (∀ i, i < srcs.length → ∃ t, proj out i ++ t = srcs.getD i []) := by
  unfold interleave_datasets at hok
  split at hok
  · exact absurd hok (by simp)
  · injection hok with h
    subst h
    exact ⟨fun u v huv hv i hi =>
        interleaveLoop_instant_stop _ _ _ u v huv hv i hi,
      interleaveLoop_drained _ _ _ hne,
      fun i hi => interleaveLoop_proj_init _ _ _ i hi⟩

theorem interleave_policyA_stops_at_first_exhaustion_witness :
    (∀ u v, u ++ v = [(0, (1 : Nat))] → v ≠ [] →
      ∀ i, i < [[1], [2]].length →
        (proj u i).length < ([[1], [2]].getD i []).length) ∧
    (∃ i, i < [[1], [2]].length ∧
      proj [(0, (1 : Nat))] i = [[1], [2]].getD i []) ∧
    (∀ i, i < [[1], [2]].length →
      ∃ t, proj [(0, (1 : Nat))] i ++ t = [[1], [2]].getD i []) :=
  interleave_policyA_stops_at_first_exhaustion Nat 0 [[1], [2]] [1, 0] [(0, 1)]
    (by
      have hlt : unitRat 0 0 * ([1, 0] : List ℚ).sum < 1 := by
        unfold unitRat lcg
        norm_num
      have hc : weightedChoose [1, 0] 0 0 = 0 := by
        unfold weightedChoose
        simp only [cumIndex]
        rw [if_pos hlt]
      have h1 : interleaveLoop (weightedChoose [1, 0] 0) 0 [[1], [2]] =
          [(0, (1 : Nat))] := by
        rw [interleaveLoop_step (weightedChoose [1, 0] 0) 0 [[1], [2]] 1 []
          (by simp) (by simp [hc])]
        simp [hc]
        exact interleaveLoop_stop _ _ _ ⟨[], List.mem_cons_self _ _, rfl⟩
      simp [interleave_datasets, h1])
    (by simp)

/-- C5: for every source sequence, the Buffered Shuffle-Stream with
`buffer_size = 1` emits the records in exactly the source's original order. -/
theorem shuffle_bufferSize_one_is_identity (α : Type) (seed : Nat)
    (src : List α) : shuffle seed 1 src = src := by
  cases src with
  | nil => simp [shuffle, shuffleStream, shuffleLoop]
  | cons a t =>
    unfold shuffle shuffleStream
    have h1 : (a :: t).take 1 = [a] := by simp
    have h2 : (a :: t).drop 1 = t := by simp
    rw [h1, h2, shuffleLoop_singleton]

/-- C6: construction raises `InvalidArgument` exactly for malformed
parameters — Buffered Shuffle-Stream construction fails iff
`buffer_size <= 0`, and Round-Robin Interleaver construction fails iff the
sources and weights lists have different lengths or all weights are zero. -/
theorem construction_invalid_argument_iff (α : Type) (seed : Nat)
    (bufferSize : Int) (src : List α) (srcs : List (List α)) (ws : List ℚ) :
    (mkShuffle seed bufferSize src = Except.error StreamError.InvalidArgument ↔
      bufferSize ≤ 0) ∧
    (interleave_datasets seed srcs ws = Except.error StreamError.InvalidArgument ↔
      (srcs.length ≠ ws.length ∨ ∀ w ∈ ws, w = 0)) := by
  constructor
  · by_cases hb : bufferSize ≤ 0
    · simp [mkShuffle, hb]
    · simp [mkShuffle, hb]
  · by_cases hc : srcs.length ≠ ws.length ∨ ∀ w ∈ ws, w = 0
    · simp only [interleave_datasets, if_pos hc]
      simpa using hc
    · simp only [interleave_datasets, if_neg hc]
      simpa using hc

/-- C7: for every finite source and positive `buffer_size`, iteration of the
Buffered Shuffle-Stream terminates (the emitted sequence is a finite list),
the stream is empty exactly when the source is empty, and the number of
emitted records equals the length of the source. -/
theorem shuffle_terminates_emits_all (α : Type) (seed bufferSize : Nat)
    (src : List α) (h : 0 < bufferSize) :
    (shuffle seed bufferSize src).length = src.length ∧
    (shuffle seed bufferSize src = [] ↔ src = []) := by
  have hp : List.Perm (shuffle seed bufferSize src) src :=
    shuffleStream_perm (lcg seed) bufferSize src h
  refine ⟨hp.length_eq, ?_, ?_⟩
  · intro he
    rw [he] at hp
    exact hp.symm.eq_nil
  · intro he
    subst he
    exact hp.eq_nil

theorem shuffle_terminates_emits_all_witness :
    (shuffle 7 3 [1, 2, 3, 4] : List Nat).length = ([1, 2, 3, 4] : List Nat).length ∧
    ((shuffle 7 3 [1, 2, 3, 4] : List Nat) = [] ↔ ([1, 2, 3, 4] : List Nat) = []) :=
  shuffle_terminates_emits_all Nat 7 3 [1, 2, 3, 4] (by decide)

/-- C8: at every step of the Buffered Shuffle-Stream's iteration, the number
of records held in the buffer never exceeds `buffer_size`. -/
theorem shuffle_buffer_never_exceeds_bound (α : Type) (seed bufferSize : Nat)
    (src : List α) (h : 0 < bufferSize) :
    ∀ n ∈ shuffleBufTrace seed bufferSize src, n ≤ bufferSize := by
  intro n hn
  have h1 := shuffleBufLens_le (lcg seed) 0 (src.take bufferSize)
    (src.drop bufferSize) n hn
  have h2 : (src.take bufferSize).length ≤ bufferSize := by
    rw [List.length_take]
    exact Nat.min_le_left _ _
  exact Nat.le_trans h1 h2

theorem shuffle_buffer_never_exceeds_bound_witness : 1 ≤ 1 :=
  shuffle_buffer_never_exceeds_bound Nat 7 1 [5] (by decide) 1
    (by simp [shuffleBufTrace, shuffleBufLens, Nat.mod_one])

/-- C9: for every sequence `s` and every `n`, `take n` followed by `skip n`
reassembles `s` exactly: `take` yields the first `min n (length s)` records
in order, `skip` yields the remaining `length s - n` records in order, and
each record occurrence lands in exactly one of the two splits. -/
theorem take_skip_partition (α : Type) [DecidableEq α] (n : Nat) (s : List α) :
    dsTake n s ++ dsSkip n s = s ∧
    (dsTake n s).length = min n s.length ∧
    (dsSkip n s).length = s.length - n ∧
    ∀ a : α, (dsTake n s).count a + (dsSkip n s).count a = s.count a := by
  refine ⟨List.take_append_drop n s, List.length_take n s, List.length_drop n s, ?_⟩
  intro a
  rw [dsTake, dsSkip, ← List.count_append, List.take_append_drop]

/-- C10: the metric computation on predictions `[1, 0, 0]` against references
`[1, 0, 1]` returns accuracy `2/3` and f1 `2/3`, and in general for
equal-length lists the accuracy entry equals the matching-position count
divided by the list length. -/
theorem metric_compute_accuracy_f1 :
    metricCompute [1, 0, 0] [1, 0, 1] = (2 / 3, 2 / 3) ∧
    ∀ preds refs : List Nat, preds.length = refs.length →
      (metricCompute preds refs).1 =
        (matchCount preds refs : ℚ) / (refs.length : ℚ) := by
  constructor
  · have h1 : accStats [1, 0, 0] [1, 0, 1] = (2, 3) := rfl
    have h2 : tpCount [1, 0, 0] [1, 0, 1] = 1 := rfl
    have h3 : fpCount [1, 0, 0] [1, 0, 1] = 0 := rfl
    have h4 : fnCount [1, 0, 0] [1, 0, 1] = 1 := rfl
    simp only [metricCompute, accuracy, f1, h1, h2, h3, h4]
    norm_num
  · intro preds refs h
    show accuracy preds refs = _
    rw [accuracy, accStats_fst preds refs, accStats_snd preds refs h]

theorem metric_compute_accuracy_f1_witness :
    (metricCompute [1, 0, 0] [1, 0, 1]).1 =
      (matchCount [1, 0, 0] [1, 0, 1] : ℚ) / ((([1, 0, 1] : List Nat).length : Nat) : ℚ) :=
  metric_compute_accuracy_f1.2 [1, 0, 0] [1, 0, 1] (by decide)

end NLPJourney
